import Mathlib

/-!
Shallow embedding of the mesos-dns record-generation core (this
repository's `records` and `records/state` packages), together with the
Go standard-library string and network primitives those packages call
(`strings.Split` with one-character separators, `strings.TrimSpace`,
`strconv.Atoi`/`Itoa`, `net.ParseIP`, `net.IP.String`,
`net.SplitHostPort`).

Modelling conventions: Go strings are Lean `String`s (worked on through
their `List Char` data), Go byte and integer values are `Nat`/`Int`,
the `float64` status timestamps are `Rat` (the code only ever orders
them), and a Go runtime panic (out-of-range index) is an `Option`
result whose `none` marks the panic.  Functions missing from `src/`
(the record generator of `records.go`, exercised only by the tests in
the repository) are modelled from the specification and carry a doc
comment starting with `Modelled from the spec:`.
-/

namespace MesosDNS

/-! ## Go standard library: strings and strconv -/

/-- goSplitChar embeds `strings.Split` restricted to the one-character
separators the repository uses: the string is cut around every
occurrence of the separator, and the result always has at least one
(possibly empty) field. -/
def goSplitChar (c : Char) : List Char → List (List Char)
  | [] => [[]]
  | x :: xs =>
    match goSplitChar c xs with
    | [] => [[x]]
    | r :: rs => if x = c then [] :: r :: rs else (x :: r) :: rs

/-- goIsSpace embeds `unicode.IsSpace` on the Latin-1 range, which is
all `strings.TrimSpace` can meet in this code path. -/
def goIsSpace (c : Char) : Bool :=
  c == ' ' || c == '\t' || c == '\n' || c == '\x0b' || c == '\x0c' || c == '\r' ||
    c == '\x85' || c == '\xa0'

/-- goTrimSpace embeds `strings.TrimSpace`: white space is removed from
both ends of the string. -/
def goTrimSpace (s : List Char) : List Char :=
  ((s.dropWhile goIsSpace).reverse.dropWhile goIsSpace).reverse

/-- digitChar is the ASCII digit for a value below ten (values ten and
above never arise from a remainder by ten). -/
def digitChar : Nat → Char
  | 0 => '0' | 1 => '1' | 2 => '2' | 3 => '3' | 4 => '4'
  | 5 => '5' | 6 => '6' | 7 => '7' | 8 => '8' | _ => '9'

/-- natDigitsAux is the decimal printer with explicit fuel, making the
recursion structural so that the kernel can evaluate it; the fuel
`n + 1` always suffices since the argument shrinks by a factor of
ten. -/
def natDigitsAux : Nat → Nat → List Char
  | 0, _ => []
  | fuel + 1, n =>
    if n < 10 then [digitChar n] else natDigitsAux fuel (n / 10) ++ [digitChar (n % 10)]

/-- natDigits renders a natural number in decimal, most significant
digit first, as `strconv.Itoa` does for non-negative values. -/
def natDigits (n : Nat) : List Char := natDigitsAux (n + 1) n

/-- goItoa embeds `strconv.Itoa`. -/
def goItoa (i : Int) : List Char :=
  if i < 0 then '-' :: natDigits (-i).toNat else natDigits i.toNat

/-- isDigitChar recognises an ASCII decimal digit. -/
def isDigitChar (c : Char) : Bool := '0' ≤ c && c ≤ '9'

/-- atoiDigits folds a run of decimal digits into its value. -/
def atoiDigits (s : List Char) : Nat :=
  s.foldl (fun a c => a * 10 + (c.toNat - 48)) 0

/-- atoiMag finishes `strconv.Atoi` once the sign is stripped: an empty
or non-numeric remainder yields 0 (the callers in the source discard
the error and keep the zero value), and a value beyond the 64-bit range
yields the clamped extreme that `ParseInt` reports with its range
error. -/
def atoiMag (neg : Bool) (ds : List Char) : Int :=
  if ds.isEmpty || !ds.all isDigitChar then 0
  else
    let n := atoiDigits ds
    if neg then if (n : Int) > 2 ^ 63 then -(2 ^ 63) else -(n : Int)
    else if (n : Int) > 2 ^ 63 - 1 then 2 ^ 63 - 1 else (n : Int)

/-- goAtoi embeds `strconv.Atoi` with the error ignored, exactly as the
source calls it. -/
def goAtoi (s : List Char) : Int :=
  if s.head? = some '-' then atoiMag true s.tail
  else if s.head? = some '+' then atoiMag false s.tail
  else atoiMag false s

/-! ## Go standard library: net.ParseIP, net.IP.String, net.SplitHostPort -/

/-- parseIPv4Field checks one dotted-quad field.  Go's `dtoi` walks the
digits with a cutoff well above 255 and `parseIPv4` then rejects values
above 255; since the accumulated value never decreases while digits are
consumed, this is equivalent to requiring a non-empty all-digit field
whose value is at most 255. -/
def parseIPv4Field (f : List Char) : Option Nat :=
  if !f.isEmpty && f.all isDigitChar && atoiDigits f ≤ 255 then some (atoiDigits f)
  else none

/-- parseIPv4Chars embeds `net.parseIPv4`: exactly four dotted decimal
fields, each between 0 and 255, consuming the whole string. -/
def parseIPv4Chars (s : List Char) : Option (List Nat) :=
  match (goSplitChar '.' s).mapM parseIPv4Field with
  | some [a, b, c, d] => some [a, b, c, d]
  | _ => none

/-- hexDigitVal gives the value of one hexadecimal digit. -/
def hexDigitVal (c : Char) : Option Nat :=
  if '0' ≤ c && c ≤ '9' then some (c.toNat - 48)
  else if 'a' ≤ c && c ≤ 'f' then some (c.toNat - 87)
  else if 'A' ≤ c && c ≤ 'F' then some (c.toNat - 55)
  else none

/-- parseGroup checks one 16-bit hexadecimal group of an IPv6 literal.
Go's `xtoi` uses a cutoff well above 0xFFFF and `parseIPv6` rejects
group values above 0xFFFF; as the accumulated value never decreases,
this equals requiring a non-empty all-hex group of value at most
0xFFFF. -/
def parseGroup (g : List Char) : Option Nat :=
  match g.mapM hexDigitVal with
  | some ds =>
    let v := ds.foldl (fun a d => a * 16 + d) 0
    if !g.isEmpty && v ≤ 0xFFFF then some v else none
  | none => none

/-- splitEllipsis finds the first `::` of an IPv6 literal and returns
the parts before and after it. -/
def splitEllipsis : List Char → Option (List Char × List Char)
  | [] => none
  | [_] => none
  | ':' :: ':' :: rest => some ([], rest)
  | x :: y :: rest => (splitEllipsis (y :: rest)).map (fun p => (x :: p.1, p.2))

/-- groupBytes turns a 16-bit group value into its two bytes. -/
def groupBytes (n : Nat) : List Nat := [n / 256, n % 256]

/-- parseGroupsPlain parses colon-separated hex groups where no
trailing dotted-quad may appear (the part before a `::`: Go's dot
branch fires before the ellipsis is seen and fails there). -/
def parseGroupsPlain (gs : List (List Char)) : Option (List Nat) :=
  match gs.mapM parseGroup with
  | some ns => some ((ns.map groupBytes).flatten)
  | none => none

/-- parseGroupsTail parses colon-separated groups whose last group may
be a dotted quad (Go's trailing-IPv4 branch consumes the rest of the
string, so the quad can only close the literal). -/
def parseGroupsTail : List (List Char) → Option (List Nat)
  | [] => some []
  | [g] =>
    if g.contains '.' then parseIPv4Chars g
    else (parseGroup g).map groupBytes
  | g :: rest =>
    match parseGroup g, parseGroupsTail rest with
    | some n, some bs => some (groupBytes n ++ bs)
    | _, _ => none

/-- parseIPv6Chars embeds `net.parseIPv6` (zones disallowed, as in
`net.ParseIP`): at most one `::`, 16 bytes in total, a `::` standing
for at least one zero group, and an optional trailing dotted quad. -/
def parseIPv6Chars (s : List Char) : Option (List Nat) :=
  match splitEllipsis s with
  | none =>
    match parseGroupsTail (goSplitChar ':' s) with
    | some bs => if bs.length = 16 then some bs else none
    | none => none
  | some (pre, post) =>
    match (if pre.isEmpty then some [] else parseGroupsPlain (goSplitChar ':' pre)),
          (if post.isEmpty then some [] else parseGroupsTail (goSplitChar ':' post)) with
    | some bs1, some bs2 =>
      if bs1.length + bs2.length < 16 then
        some (bs1 ++ List.replicate (16 - bs1.length - bs2.length) 0 ++ bs2)
      else none
    | _, _ => none

/-- goParseIPChars embeds `net.ParseIP`: the first `.` or `:` met picks
the dotted-quad or the IPv6 parser; an address in dotted-quad form is
returned in Go's 16-byte IPv4-in-IPv6 representation, exactly as
`net.IPv4` builds it. -/
def goParseIPChars (s : List Char) : Option (List Nat) :=
  match s.find? (fun c => c == '.' || c == ':') with
  | some '.' => (parseIPv4Chars s).map (fun bs => List.replicate 10 0 ++ ([255, 255] ++ bs))
  | some _ => parseIPv6Chars s
  | none => none

/-- goParseIP embeds `net.ParseIP`. -/
def goParseIP (s : String) : Option (List Nat) := goParseIPChars s.data

/-- hexDigitChar is the lower-case hexadecimal digit of a value below
sixteen. -/
def hexDigitChar : Nat → Char
  | 0 => '0' | 1 => '1' | 2 => '2' | 3 => '3' | 4 => '4'
  | 5 => '5' | 6 => '6' | 7 => '7' | 8 => '8' | 9 => '9'
  | 10 => 'a' | 11 => 'b' | 12 => 'c' | 13 => 'd' | 14 => 'e' | _ => 'f'

/-- natHexDigitsAux is the hexadecimal printer with explicit fuel,
keeping the recursion structural for kernel evaluation. -/
def natHexDigitsAux : Nat → Nat → List Char
  | 0, _ => []
  | fuel + 1, n =>
    if n < 16 then [hexDigitChar n] else natHexDigitsAux fuel (n / 16) ++ [hexDigitChar (n % 16)]

/-- natHexDigits renders a value in lower-case hexadecimal without
leading zeros, as Go's `appendHex` does. -/
def natHexDigits (n : Nat) : List Char := natHexDigitsAux (n + 1) n

/-- byteHex2 renders one byte as two hexadecimal digits, as Go's
`hexString` does on a malformed address. -/
def byteHex2 (b : Nat) : List Char := [hexDigitChar (b / 16), hexDigitChar (b % 16)]

/-- pairWords groups a byte list into 16-bit words. -/
def pairWords : List Nat → List Nat
  | b1 :: b2 :: rest => (b1 * 256 + b2) :: pairWords rest
  | _ => []

/-- countZerosFrom counts the leading zero words of a list. -/
def countZerosFrom : List Nat → Nat
  | 0 :: rest => 1 + countZerosFrom rest
  | _ => 0

/-- bestZeroRun finds the earliest longest run of zero words, provided
it is at least two words long — Go's `IP.String` scan records a run
only when strictly longer than the best so far, so the earliest longest
run wins, and a one-word run is never abbreviated. -/
def bestZeroRun (gs : List Nat) : Option (Nat × Nat) :=
  let runAt := fun i => countZerosFrom (gs.drop i)
  let m := ((List.range gs.length).map runAt).foldl max 0
  if m ≤ 1 then none
  else ((List.range gs.length).find? (fun i => runAt i = m)).map (fun i => (i, m))

/-- ipv6GroupsString renders eight 16-bit words with the best zero run
abbreviated to `::`, following Go's `IP.String` builder. -/
def ipv6GroupsString (gs : List Nat) : List Char :=
  match bestZeroRun gs with
  | none => List.intercalate [':'] (gs.map natHexDigits)
  | some (e0, len) =>
    List.intercalate [':'] ((gs.take e0).map natHexDigits) ++
      ':' :: ':' :: List.intercalate [':'] ((gs.drop (e0 + len)).map natHexDigits)

/-- ipStringChars embeds `net.IP.String`: a 4-byte address or a 16-byte
IPv4-in-IPv6 address prints as a dotted quad, any other 16-byte address
prints in RFC 5952 compressed hexadecimal, and other lengths print as a
`?`-marked hex dump. -/
def ipStringChars (bs : List Nat) : List Char :=
  if bs.isEmpty then "<nil>".data
  else if bs.length = 4 then List.intercalate ['.'] (bs.map natDigits)
  else if bs.length = 16 && bs.take 12 = [0, 0, 0, 0, 0, 0, 0, 0, 0, 0, 255, 255] then
    List.intercalate ['.'] ((bs.drop 12).map natDigits)
  else if bs.length = 16 then ipv6GroupsString (pairWords bs)
  else '?' :: (bs.map byteHex2).flatten

/-- ipString embeds `net.IP.String`. -/
def ipString (bs : List Nat) : String := ⟨ipStringChars bs⟩

/-- goSplitHostPort embeds `net.SplitHostPort`; the different error
kinds (missing port, too many colons, missing or unexpected brackets)
are all collapsed into `none`, since the source only compares the error
against nil. -/
def goSplitHostPort (hostport : String) : Option (String × String) :=
  let s := hostport.data
  match s.reverse.findIdx? (· = ':') with
  | none => none
  | some ri =>
    let i := s.length - 1 - ri
    if s.head? = some '[' then
      match s.findIdx? (· = ']') with
      | none => none
      | some e =>
        if e + 1 = s.length then none
        else if e + 1 = i then
          if (s.drop 1).contains '[' || (s.drop (e + 1)).contains ']' then none
          else some (⟨(s.take e).drop 1⟩, ⟨s.drop (i + 1)⟩)
        else none
    else
      let host := s.take i
      if host.contains ':' || host.contains '%' then none
      else if s.contains '[' || s.contains ']' then none
      else some (⟨host⟩, ⟨s.drop (i + 1)⟩)

/-! ## records/state/state.go -/

/-- Resources holds the resources of a task as found in state.json;
PortRanges is the textual port-range expression. -/
structure Resources where
  portRanges : String
deriving DecidableEq

/-- portsLoop expands the comma-separated sub-ranges of the bracketed
body: each field is trimmed, split on `-`, its two bounds read with
`Atoi` (errors discarded), and the bounds expanded inclusively.  A
field without a `-` makes the source index `pz[1]` out of range, which
is the panic modelled by `none`. -/
def portsLoop : List (List Char) → Option (List String)
  | [] => some []
  | f :: rest =>
    match goSplitChar '-' (goTrimSpace f) with
    | p0 :: p1 :: _ =>
      (portsLoop rest).map (fun tail =>
        ((List.range ((goAtoi p1 + 1 - goAtoi p0).toNat)).map
          (fun (k : Nat) => (⟨goItoa (goAtoi p0 + (k : Int))⟩ : String))) ++ tail)
    | _ => none

/-- Ports embeds `Resources.Ports` from records/state/state.go.  The
source indexes `strings.Split(r.PortRanges, "[")[1]` unchecked, so an
input without a `[` panics; `none` models that panic. -/
def Resources.Ports (r : Resources) : Option (List String) :=
  if r.portRanges = "" ∨ r.portRanges = "[]" then some []
  else
    match goSplitChar '[' r.portRanges.data with
    | _ :: rhs :: _ =>
      match goSplitChar ']' rhs with
      | lhs :: _ => portsLoop (goSplitChar ',' lhs)
      | [] => none
    | _ => none

/-- Label holds one key/value label of a task status. -/
structure Label where
  key : String
  value : String
deriving DecidableEq

/-- NetworkInfo holds one network address of a container status. -/
structure NetworkInfo where
  ipAddress : String
deriving DecidableEq

/-- ContainerStatus holds the container metadata of a task status. -/
structure ContainerStatus where
  networkInfos : List NetworkInfo
deriving DecidableEq

/-- Status holds one observation of a task; the float64 timestamp is
modelled as a rational, which preserves the ordering the source
uses. -/
structure Status where
  timestamp : Rat
  state : String
  labels : List Label
  containerStatus : ContainerStatus
deriving DecidableEq

/-- DiscoveryPort holds one declared discovery port of a task. -/
structure DiscoveryPort where
  protocol : String
  number : Int
  name : String
deriving DecidableEq

/-- DiscoveryInfo holds the discovery metadata of a task. -/
structure DiscoveryInfo where
  visibility : String
  version : String
  name : String
  location : String
  environment : String
  labels : List Label
  ports : List DiscoveryPort
deriving DecidableEq

/-- Task holds a task as found in state.json. -/
structure Task where
  frameworkID : String
  id : String
  name : String
  slaveID : String
  state : String
  statuses : List Status
  resources : Resources
  discoveryInfo : DiscoveryInfo
  slaveIP : String
deriving DecidableEq

/-- statusIPs embeds the source's loop: walking the statuses in array
order with `lastTimestamp` starting at -1.0, a running status with a
strictly larger timestamp replaces both the timestamp and the
extracted addresses. -/
def statusIPs (st : List Status) (src : Status → List String) : List String :=
  (st.foldl
    (fun (acc : Rat × List String) s =>
      if s.state = "TASK_RUNNING" ∧ acc.1 < s.timestamp then (s.timestamp, src s) else acc)
    (-1, [])).2

/-- labelVals embeds the source's `labels` helper: the values of all
labels of a status whose key equals the given key, in order. -/
def labelVals (key : String) : Status → List String :=
  fun s => (s.labels.filter (fun l => l.key = key)).map (fun l => l.value)

/-- DockerIPLabel is the label key of the Docker containerizer IP. -/
def DockerIPLabel : String := "Docker.NetworkSettings.IPAddress"

/-- MesosIPLabel is the label key of the Mesos containerizer IP. -/
def MesosIPLabel : String := "MesosContainerizer.NetworkSettings.IPAddress"

/-- hostIPs embeds the `host` source: the address of the slave the
task runs on. -/
def hostIPs (t : Task) : List String := [t.slaveIP]

/-- networkInfoIPs embeds the `netinfo` source: the addresses of the
network-info list of the latest running status. -/
def networkInfoIPs (t : Task) : List String :=
  statusIPs t.statuses (fun s => s.containerStatus.networkInfos.map (fun n => n.ipAddress))

/-- dockerIPs embeds the `docker` source. -/
def dockerIPs (t : Task) : List String := statusIPs t.statuses (labelVals DockerIPLabel)

/-- mesosIPs embeds the `mesos` source. -/
def mesosIPs (t : Task) : List String := statusIPs t.statuses (labelVals MesosIPLabel)

/-- sourceFn embeds the `sources` map from source names to extraction
functions; a name outside the map yields none. -/
def sourceFn (n : String) : Option (Task → List String) :=
  if n = "host" then some hostIPs
  else if n = "mesos" then some mesosIPs
  else if n = "docker" then some dockerIPs
  else if n = "netinfo" then some networkInfoIPs
  else none

/-- taskIPs embeds `Task.IPs`, a method on a possibly nil pointer: a
nil receiver returns nil, otherwise every known source contributes its
parseable addresses in order. -/
def taskIPs (t : Option Task) (srcs : List String) : List (List Nat) :=
  match t with
  | none => []
  | some tk =>
    srcs.foldl
      (fun ips s =>
        match sourceFn s with
        | some f => ips ++ (f tk).filterMap goParseIP
        | none => ips)
      []

/-- taskIP embeds `Task.IP`: the string form of the first IP found, or
the empty string. -/
def taskIP (t : Option Task) (srcs : List String) : String :=
  match taskIPs t srcs with
  | ip :: _ => ipString ip
  | [] => ""

/-! ## records/validation.go -/

/-- isAlnumChar recognises the `a-zA-Z0-9` character class of the
validation patterns. -/
def isAlnumChar (c : Char) : Bool :=
  ('a' ≤ c && c ≤ 'z') || ('A' ≤ c && c ≤ 'Z') || ('0' ≤ c && c ≤ '9')

/-- matchValidFQDN decides the anchored pattern
`^[a-zA-Z0-9][a-zA-Z0-9-\.]{1,61}$` of ValidFQDNRegex: a leading
alphanumeric followed by 1 to 61 characters drawn from alphanumerics,
hyphen and dot. -/
def matchValidFQDN (s : String) : Bool :=
  match s.data with
  | [] => false
  | c :: rest =>
    isAlnumChar c && rest.all (fun d => isAlnumChar d || d == '-' || d == '.') &&
      decide (1 ≤ rest.length ∧ rest.length ≤ 61)

/-- matchValidSRV decides the anchored pattern
`^[a-zA-Z0-9_][a-zA-Z0-9-._]{1,61}$` of ValidSRVRegex. -/
def matchValidSRV (s : String) : Bool :=
  match s.data with
  | [] => false
  | c :: rest =>
    (isAlnumChar c || c == '_') &&
      rest.all (fun d => isAlnumChar d || d == '-' || d == '.' || d == '_') &&
      decide (1 ≤ rest.length ∧ rest.length ≤ 61)

/-- hostPortScan decides the unanchored pattern
`[a-zA-Z0-9\.]+:[0-9]{1,5}` of ValidHostPortRegex: a substring match
exists exactly when some host-class character is immediately followed
by a colon and a decimal digit (one host character and one digit
suffice for the `+` and `{1,5}` quantifiers). -/
def hostPortScan : List Char → Bool
  | a :: ':' :: d :: rest =>
    ((isAlnumChar a || a == '.') && isDigitChar d) || hostPortScan (':' :: d :: rest)
  | _ :: rest => hostPortScan rest
  | [] => false

/-- matchValidHostPort decides ValidHostPortRegex against a string. -/
def matchValidHostPort (s : String) : Bool := hostPortScan s.data

/-- StaticEntry is an operator-supplied record: fully-qualified name,
record type and value. -/
structure StaticEntry where
  fqdn : String
  typ : String
  value : String
deriving DecidableEq

/-- validateEntriesGo embeds the entry loop of
`validateStaticEntryFile` (the surrounding file read and JSON decode
are abstracted away: the function is applied to the parsed entries of
a readable file): the first offending entry produces the error the
source formats for it. -/
def validateEntriesGo : List StaticEntry → Option String
  | [] => none
  | e :: rest =>
    if e.typ = "A" then
      if (goParseIP e.value).isNone then some ("Invalid IP on StaticEntry: " ++ e.value)
      else if !matchValidFQDN e.fqdn then some ("Invalid FQDN: " ++ e.fqdn)
      else validateEntriesGo rest
    else if e.typ = "SRV" then
      if !matchValidSRV e.fqdn then some ("Invalid SRV FQDN: " ++ e.fqdn)
      else if !matchValidHostPort e.value then some ("Invalid (Host:Port) tuple: " ++ e.value)
      else validateEntriesGo rest
    else some ("Unsupported Record Type: " ++ e.typ)

/-- entryValid restates, entry by entry, the validation rules the
specification lists for a static entry: the type is A or SRV; an A
entry carries a parseable IP and an FQDN matching the A name pattern;
an SRV entry carries an FQDN matching the underscore-extended pattern
and a value matching host:port with a 1-5 digit port. -/
def entryValid (e : StaticEntry) : Prop :=
  (e.typ = "A" ∧ (goParseIP e.value).isSome ∧ matchValidFQDN e.fqdn = true) ∨
    (e.typ = "SRV" ∧ matchValidSRV e.fqdn = true ∧ matchValidHostPort e.value = true)

instance (e : StaticEntry) : Decidable (entryValid e) := by
  unfold entryValid; infer_instance

/-- masterKey is the deduplication key `validateMasters` stores for a
master: the host and port joined by `_` after IPv6 normalization when
the host parses as an IP, the original string otherwise (its value is
irrelevant when the split fails, since validation has already
stopped). -/
def masterKey (m : String) : String :=
  match goSplitHostPort m with
  | none => m
  | some (h, p) =>
    match goParseIP h with
    | some ip => ipString ip ++ "_" ++ p
    | none => m

/-- validateMastersAux is the loop of `validateMasters`, carrying the
set of keys already seen (the Go map is modelled as a list, membership
being all the source uses). -/
def validateMastersAux (seen : List String) : List String → Option String
  | [] => none
  | m :: rest =>
    match goSplitHostPort m with
    | none => some ("illegal host:port specified for master " ++ m)
    | some _ =>
      if masterKey m ∈ seen then some ("duplicate master specified: " ++ m)
      else validateMastersAux (masterKey m :: seen) rest

/-- validateMastersGo embeds `validateMasters`: nil on an empty list,
otherwise each master must split as host:port and no two masters may
share a key. -/
def validateMastersGo (ms : List String) : Option String :=
  if ms.isEmpty then none else validateMastersAux [] ms

/-! ## The record generator (records.go, not under src/), modelled
from the specification -/

/-- rrs is a record mapping: names to insertion-ordered value lists;
the Go map with its key-presence test is modelled as an association
list. -/
abbrev rrs := List (String × List String)

/-- Modelled from the spec: the insertion rule of the record generator
(records.go is not under src/).  Inserting `(name, value)` appends
`value` to the ordered set at `name` only if it is not already there;
first-seen order is preserved.  The Bool reports whether the value was
added, which the master loop of the generator consults. -/
def rrsInsert (name val : String) : rrs → rrs × Bool
  | [] => ([(name, [val])], true)
  | (k, vs) :: rest =>
    if name = k then
      if val ∈ vs then ((k, vs) :: rest, false)
      else ((k, vs ++ [val]) :: rest, true)
    else
      let r := rrsInsert name val rest
      ((k, vs) :: r.1, r.2)

/-- rrsGet looks a name up in a record mapping, an absent name having
no values. -/
def rrsGet (m : rrs) (name : String) : List String :=
  match m with
  | [] => []
  | (k, vs) :: rest => if name = k then vs else rrsGet rest name

/-- RecordGenerator carries the two record mappings being built. -/
structure RecordGenerator where
  As : rrs
  SRVs : rrs
deriving DecidableEq

/-- emptyRG is a generator with both mappings empty, as the tests
construct it. -/
def emptyRG : RecordGenerator := ⟨[], []⟩

/-- Modelled from the spec: insertRR of the record generator
(records.go is not under src/); the record type selects the A or the
SRV mapping and the insertion rule of rrsInsert is applied there. -/
def insertRR (rg : RecordGenerator) (name host rtype : String) : RecordGenerator × Bool :=
  if rtype = "A" then
    let r := rrsInsert name host rg.As
    ({ rg with As := r.1 }, r.2)
  else
    let r := rrsInsert name host rg.SRVs
    ({ rg with SRVs := r.1 }, r.2)

/-- getRRs picks the mapping a record type addresses. -/
def getRRs (rg : RecordGenerator) (rtype : String) : rrs :=
  if rtype = "A" then rg.As else rg.SRVs

/-- Modelled from the spec: the leader parse of masterRecord
(records.go is not under src/).  The leader must match id@host:port:
it is split on `@`, the address part is taken, and the address is
split as net.SplitHostPort splits it; the address, host and port are
returned. -/
def leaderParse (leader : String) : Option (String × String × String) :=
  match goSplitChar '@' leader.data with
  | _ :: addr :: _ =>
    match goSplitHostPort ⟨addr⟩ with
    | some (h, p) => some (⟨addr⟩, h, p)
    | none => none
  | _ => none

/-- Modelled from the spec: the fallback-master loop of masterRecord
(records.go is not under src/).  Masters are scanned in listed order;
an entry that fails to split is skipped; a non-leader entry gets a
`master.<domain>` record unless its host is a duplicate, in which case
the entry is dropped; each surviving distinct entry gets the next
numeric suffix, the leader's own entry taking its scan position; if
the leader never appeared, it receives the suffix after all scanned
masters (suffix 0 for an empty list, as §4.5 states and
TestMasterRecord expects). -/
def masterLoop (d leaderAddr ip : String) :
    List String → Bool → Nat → RecordGenerator → RecordGenerator
  | [], addedLeader, idx, rg =>
    if addedLeader then rg
    else (insertRR rg ("master" ++ (⟨natDigits idx⟩ : String) ++ "." ++ d ++ ".") ip "A").1
  | m :: rest, addedLeader, idx, rg =>
    match goSplitHostPort m with
    | none => masterLoop d leaderAddr ip rest addedLeader idx rg
    | some (mip, _) =>
      if m ≠ leaderAddr then
        let r := insertRR rg ("master." ++ d ++ ".") mip "A"
        if !r.2 then masterLoop d leaderAddr ip rest addedLeader idx r.1
        else
          masterLoop d leaderAddr ip rest addedLeader (idx + 1)
            (insertRR r.1 ("master" ++ (⟨natDigits idx⟩ : String) ++ "." ++ d ++ ".") mip "A").1
      else if addedLeader then masterLoop d leaderAddr ip rest addedLeader idx rg
      else
        masterLoop d leaderAddr ip rest true (idx + 1)
          (insertRR rg ("master" ++ (⟨natDigits idx⟩ : String) ++ "." ++ d ++ ".") mip "A").1

/-- Modelled from the spec: masterRecord of the record generator
(records.go is not under src/).  An unparsable leader emits nothing;
a valid leader emits `leader.<domain>` and `master.<domain>` A records
for its host and the `_leader._tcp`/`_leader._udp` SRV records at
`leader.<domain>.:<port>`, then the fallback-master loop runs. -/
def masterRecordModel (d : String) (masters : List String) (leader : String)
    (rg : RecordGenerator) : RecordGenerator :=
  match leaderParse leader with
  | none => rg
  | some (addr, ip, port) =>
    let rg1 := (insertRR rg ("leader." ++ d ++ ".") ip "A").1
    let rg2 := (insertRR rg1 ("master." ++ d ++ ".") ip "A").1
    let host := "leader." ++ d ++ "." ++ ":" ++ port
    let rg3 := (insertRR rg2 ("_leader._tcp." ++ d ++ ".") host "SRV").1
    let rg4 := (insertRR rg3 ("_leader._udp." ++ d ++ ".") host "SRV").1
    masterLoop d addr ip masters false 0 rg4

/-- Modelled from the spec: the most recent status of a task, by
timestamp and not array order (§3; on equal timestamps the earliest
occurrence is kept). -/
def mostRecentStatus (st : List Status) : Option Status :=
  st.foldl
    (fun acc s =>
      match acc with
      | none => some s
      | some a => if a.timestamp < s.timestamp then some s else acc)
    none

/-- Modelled from the spec: whether a task contributes records in a
synthesis pass (records.go is not under src/): §4.4 admits exactly the
tasks whose most recent status is running. -/
def taskContributesRecords (t : Task) : Bool :=
  match mostRecentStatus t.statuses with
  | some s => s.state = "TASK_RUNNING"
  | none => false

/-! ## Specification-side derived definitions and fixtures -/

/-- joinSep joins pieces with a separator between consecutive
pieces. -/
def joinSep (sep : List Char) : List (List Char) → List Char
  | [] => []
  | [p] => p
  | p :: ps => p ++ sep ++ joinSep sep ps

/-- rangePiece writes one sub-range as `lo-hi`. -/
def rangePiece (p : Nat × Nat) : List Char := natDigits p.1 ++ '-' :: natDigits p.2

/-- renderRanges writes a list of port ranges in the textual form
`[lo1-hi1, lo2-hi2, ...]` used by state.json. -/
def renderRanges (rs : List (Nat × Nat)) : String :=
  ⟨'[' :: joinSep [',', ' '] (rs.map rangePiece) ++ [']']⟩

/-- expandRanges expands each sub-range inclusively from low to high
in ascending order, sub-ranges concatenated in listed order. -/
def expandRanges (rs : List (Nat × Nat)) : List String :=
  (rs.map (fun p => (List.range (p.2 + 1 - p.1)).map
    (fun k => (⟨natDigits (p.1 + k)⟩ : String)))).flatten

/-- portsWellShaped marks the inputs on which the decoder's
split-and-index steps stay in range: the two early-return literals,
and otherwise a `[` present and a `-` inside every comma field of the
bracketed body. -/
def portsWellShaped (r : String) : Bool :=
  r == "" || r == "[]" ||
    (match goSplitChar '[' r.data with
     | _ :: rhs :: _ =>
       match goSplitChar ']' rhs with
       | lhs :: _ => (goSplitChar ',' lhs).all (fun f => 2 ≤ (goSplitChar '-' (goTrimSpace f)).length)
       | [] => false
     | _ => false)

/-- sourceYield is the specification-side reading of one IP source:
the addresses the named source yields for a task, an unknown name
yielding nothing. -/
def sourceYield (s : String) (t : Task) : List String :=
  match sourceFn s with
  | some f => f t
  | none => []

/-- accTs is the timestamp the source's loop variable `lastTimestamp`
holds for a given selection state. -/
def accTs (acc : Option Status) : Rat :=
  match acc with
  | none => -1
  | some a => a.timestamp

/-- selStep is one step of the authoritative-status scan: a running
status with a strictly larger timestamp replaces the selection. -/
def selStep (acc : Option Status) (s : Status) : Option Status :=
  if s.state = "TASK_RUNNING" ∧ accTs acc < s.timestamp then some s else acc

/-- selectAuthFrom runs the authoritative-status scan from a given
selection state. -/
def selectAuthFrom (acc : Option Status) (st : List Status) : Option Status :=
  st.foldl selStep acc

/-- selectAuth picks the status whose addresses statusIPs reports: the
first running status carrying the maximal timestamp, provided that
timestamp beats the initial -1. -/
def selectAuth (st : List Status) : Option Status := selectAuthFrom none st

/-- status₀run is a fixture: a running observation carrying a Docker
label, with the earlier timestamp. -/
def status₀run : Status :=
  ⟨1, "TASK_RUNNING", [⟨"Docker.NetworkSettings.IPAddress", "10.3.0.1"⟩], ⟨[]⟩⟩

/-- status₀kill is a fixture: a later non-running observation. -/
def status₀kill : Status := ⟨2, "TASK_KILLED", [], ⟨[]⟩⟩

/-- task₀ is a fixture: a task whose earlier status is running but
whose most recent status, by timestamp, is not. -/
def task₀ : Task :=
  ⟨"fw", "id", "nm", "sl", "TASK_KILLED", [status₀run, status₀kill], ⟨""⟩,
    ⟨"", "", "", "", "", [], []⟩, "1.2.3.4"⟩

/-- task₁ is a fixture: a running task with one parseable and one
unparseable network-info address. -/
def task₁ : Task :=
  ⟨"fw", "id", "nm", "sl", "TASK_RUNNING",
    [⟨1, "TASK_RUNNING", [], ⟨[⟨"10.1.1.1"⟩, ⟨"bogus"⟩]⟩⟩], ⟨""⟩,
    ⟨"", "", "", "", "", [], []⟩, "1.2.3.4"⟩

/-! ## Helper lemmas -/

theorem string_eq_of_data {s t : String} (h : s.data = t.data) : s = t :=
  congrArg String.mk h

theorem append_left_ne_of_take {p q x y : String} {n : Nat}
    (hp : n ≤ p.data.length) (hq : n ≤ q.data.length)
    (hne : p.data.take n ≠ q.data.take n) : p ++ x ≠ q ++ y := by
  intro h
  apply hne
  have hd : p.data ++ x.data = q.data ++ y.data := by
    have := congrArg String.data h
    simpa [String.data_append] using this
  calc p.data.take n = (p.data ++ x.data).take n := (List.take_append_of_le_length hp).symm
    _ = (q.data ++ y.data).take n := by rw [hd]
    _ = q.data.take n := List.take_append_of_le_length hq

theorem key_ne_of_take (p q d : String) (n : Nat)
    (hp : n ≤ p.data.length) (hq : n ≤ q.data.length)
    (hne : p.data.take n ≠ q.data.take n) : p ++ d ++ "." ≠ q ++ d ++ "." := by
  rw [String.append_assoc p d ".", String.append_assoc q d "."]
  exact append_left_ne_of_take hp hq hne

theorem natDigitsAux_fuel_irrel :
    ∀ f₁ f₂ n, n < f₁ → n < f₂ → natDigitsAux f₁ n = natDigitsAux f₂ n := by
  intro f₁
  induction f₁ with
  | zero => intro f₂ n h; omega
  | succ f ih =>
    intro f₂ n h1 h2
    obtain ⟨g, rfl⟩ : ∃ g, f₂ = g + 1 := ⟨f₂ - 1, by omega⟩
    simp only [natDigitsAux]
    by_cases h10 : n < 10
    · simp [h10]
    · rw [if_neg h10, if_neg h10,
        ih g (n / 10) (by omega) (by omega)]

theorem natDigits_unfold (n : Nat) :
    natDigits n = if n < 10 then [digitChar n] else natDigits (n / 10) ++ [digitChar (n % 10)] := by
  show natDigitsAux (n + 1) n = _
  simp only [natDigitsAux]
  by_cases h10 : n < 10
  · simp [h10]
  · rw [if_neg h10, if_neg h10]
    unfold natDigits
    rw [natDigitsAux_fuel_irrel n (n / 10 + 1) (n / 10) (by omega) (by omega)]

theorem goSplitChar_ne_nil (c : Char) (s : List Char) : goSplitChar c s ≠ [] := by
  induction s with
  | nil => simp [goSplitChar]
  | cons x xs ih =>
    simp only [goSplitChar]
    match h : goSplitChar c xs with
    | [] => simp
    | r :: rs =>
      by_cases hx : x = c <;> simp [hx]

theorem goSplitChar_cons_sep (c : Char) (s : List Char) :
    goSplitChar c (c :: s) = [] :: goSplitChar c s := by
  have h := goSplitChar_ne_nil c s
  simp only [goSplitChar]
  match hs : goSplitChar c s with
  | [] => exact absurd hs h
  | r :: rs => simp

theorem goSplitChar_cons_ne {c x : Char} (hx : x ≠ c) (s : List Char) {h : List Char}
    {tl : List (List Char)} (hs : goSplitChar c s = h :: tl) :
    goSplitChar c (x :: s) = (x :: h) :: tl := by
  simp only [goSplitChar, hs]
  simp [hx]

theorem goSplitChar_no_occurrence {c : Char} {s : List Char} (h : ∀ x ∈ s, x ≠ c) :
    goSplitChar c s = [s] := by
  induction s with
  | nil => rfl
  | cons x xs ih =>
    have hx : x ≠ c := h x (by simp)
    have hxs := ih (fun y hy => h y (by simp [hy]))
    exact goSplitChar_cons_ne hx xs hxs

theorem goSplitChar_break {c : Char} {p : List Char} (hp : ∀ x ∈ p, x ≠ c) (r : List Char) :
    goSplitChar c (p ++ c :: r) = p :: goSplitChar c r := by
  induction p with
  | nil => simpa using goSplitChar_cons_sep c r
  | cons x xs ih =>
    have hx : x ≠ c := hp x (by simp)
    have hxs := ih (fun y hy => hp y (by simp [hy]))
    have hne := goSplitChar_ne_nil c r
    obtain ⟨h, tl, hh⟩ : ∃ h tl, goSplitChar c r = h :: tl := by
      match hg : goSplitChar c r with
      | [] => exact absurd hg hne
      | a :: b => exact ⟨a, b, rfl⟩
    rw [hh] at hxs ⊢
    simpa using goSplitChar_cons_ne hx (xs ++ c :: r) hxs

/-! ## C6: totality of the port-range decoder -/

/-- C6, counterexample: the claim says the decoder never fails on any
input, but on the input `x` — which contains no `[` — the source's
`strings.Split(r.PortRanges, "[")[1]` indexes past the end and panics,
modelled by `none`. -/
theorem ports_not_total_on_x : Resources.Ports ⟨"x"⟩ = none := by decide

theorem portsLoop_isSome_of_dash
    (fs : List (List Char))
    (h : ∀ f ∈ fs, 2 ≤ (goSplitChar '-' (goTrimSpace f)).length) :
    (portsLoop fs).isSome = true := by
  induction fs with
  | nil => rfl
  | cons f rest ih =>
    have hf := h f (by simp)
    have hrest := ih (fun g hg => h g (by simp [hg]))
    simp only [portsLoop]
    match hs : goSplitChar '-' (goTrimSpace f) with
    | [] => rw [hs] at hf; simp at hf
    | [p] => rw [hs] at hf; simp at hf
    | p0 :: p1 :: tl =>
      match hrl : portsLoop rest with
      | none => rw [hrl] at hrest; simp at hrest
      | some tail => simp

/-- C6, amended: the decoder returns the empty sequence, without
failing, on the two early-return inputs, and its splitting and
indexing steps stay in range exactly on the well-shaped inputs (a `[`
present and a `-` in every comma field of the bracketed body); on
other inputs — such as `x` — the indexing panics, so the decoder is
not total. -/
theorem ports_empty_and_wellshaped_total :
    Resources.Ports ⟨""⟩ = some [] ∧ Resources.Ports ⟨"[]"⟩ = some [] ∧
      ∀ r : String, portsWellShaped r = true → (Resources.Ports ⟨r⟩).isSome = true := by
  refine ⟨by decide, by decide, ?_⟩
  intro r h
  by_cases h0 : r = ""
  · subst h0; decide
  by_cases h1 : r = "[]"
  · subst h1; decide
  have e0 : (r == "") = false := beq_eq_false_iff_ne.mpr h0
  have e1 : (r == "[]") = false := beq_eq_false_iff_ne.mpr h1
  simp only [portsWellShaped, e0, e1, Bool.false_or] at h
  simp only [Resources.Ports]
  rw [if_neg (by tauto : ¬(r = "" ∨ r = "[]"))]
  rcases hs : goSplitChar '[' r.data with _ | ⟨a, _ | ⟨rhs, rest⟩⟩ <;> rw [hs] at h <;>
    simp only at h ⊢
  · exact absurd h (by simp)
  · exact absurd h (by simp)
  · rcases ht : goSplitChar ']' rhs with _ | ⟨lhs, rest2⟩ <;> rw [ht] at h <;> simp only at h ⊢
    · exact absurd ht (goSplitChar_ne_nil ']' rhs)
    · simp only [List.all_eq_true, decide_eq_true_eq] at h
      exact portsLoop_isSome_of_dash _ h

/-- C6, witness for the amended theorem: the well-shaped input
`[31115-31117]` is decoded without failure. -/
theorem ports_wellshaped_witness :
    (Resources.Ports ⟨"[31115-31117]"⟩).isSome = true :=
  ports_empty_and_wellshaped_total.2.2 "[31115-31117]" (by decide)

/-! ## C2: a malformed leader emits no master records -/

/-- C2: for every domain and master list, a leader string that does
not match id@host:port — including the empty string, `@`, `1@`, `@2`
and the portless `3@4` — makes masterRecord emit nothing: both record
mappings stay empty. -/
theorem masterRecord_malformed_leader_empty :
    (∀ (d : String) (ms : List String) (l : String), leaderParse l = none →
        (masterRecordModel d ms l emptyRG).As = [] ∧ (masterRecordModel d ms l emptyRG).SRVs = []) ∧
      leaderParse "" = none ∧ leaderParse "@" = none ∧ leaderParse "1@" = none ∧
      leaderParse "@2" = none ∧ leaderParse "3@4" = none := by
  refine ⟨?_, by decide, by decide, by decide, by decide, by decide⟩
  intro d ms l h
  simp [masterRecordModel, h, emptyRG]

/-- C2, witness: the malformed leader `@` with a non-empty master list
emits nothing. -/
theorem masterRecord_malformed_leader_witness :
    (masterRecordModel "example.com" ["8:9"] "@" emptyRG).As = [] ∧
      (masterRecordModel "example.com" ["8:9"] "@" emptyRG).SRVs = [] :=
  masterRecord_malformed_leader_empty.1 "example.com" ["8:9"] "@" (by decide)

/-! ## C4: idempotent insertion -/

theorem rrsInsert_twice (n v : String) (m : rrs) :
    rrsInsert n v (rrsInsert n v m).1 = ((rrsInsert n v m).1, false) := by
  induction m with
  | nil => simp [rrsInsert]
  | cons kv rest ih =>
    obtain ⟨k, vs⟩ := kv
    by_cases hk : n = k
    · subst hk
      by_cases hv : v ∈ vs
      · simp [rrsInsert, hv]
      · simp [rrsInsert, hv]
    · simp [rrsInsert, hk, ih]

theorem rrsGet_insert (n v : String) (m : rrs) :
    rrsGet (rrsInsert n v m).1 n =
      if v ∈ rrsGet m n then rrsGet m n else rrsGet m n ++ [v] := by
  induction m with
  | nil => simp [rrsInsert, rrsGet]
  | cons kv rest ih =>
    obtain ⟨k, vs⟩ := kv
    by_cases hk : n = k
    · subst hk
      by_cases hv : v ∈ vs
      · simp [rrsInsert, rrsGet, hv]
      · simp [rrsInsert, rrsGet, hv]
    · simp [rrsInsert, rrsGet, hk, ih]

theorem getRRs_insertRR (rg : RecordGenerator) (n v ty : String) :
    getRRs (insertRR rg n v ty).1 ty = (rrsInsert n v (getRRs rg ty)).1 := by
  by_cases h : ty = "A" <;> simp [insertRR, getRRs, h]

theorem insertRR_twice (rg : RecordGenerator) (n v ty : String) :
    insertRR (insertRR rg n v ty).1 n v ty = ((insertRR rg n v ty).1, false) := by
  by_cases h : ty = "A" <;>
    simp [insertRR, h, rrsInsert_twice, Prod.ext_iff]

/-- C4: insertion is idempotent — a second identical insert is a
no-op (and reports nothing added); after one-or-more identical inserts
the value occurs exactly once under the name (for any mapping that did
not already duplicate it); and fresh distinct values accumulate at the
end, in first-seen order. -/
theorem insertRR_idempotent :
    ∀ (rg : RecordGenerator) (n v ty : String) (k : Nat) (ws : List String),
      insertRR (insertRR rg n v ty).1 n v ty = ((insertRR rg n v ty).1, false) ∧
      (1 ≤ k → (rrsGet (getRRs rg ty) n).count v ≤ 1 →
        (rrsGet (getRRs ((fun g => (insertRR g n v ty).1)^[k] rg) ty) n).count v = 1) ∧
      (ws.Nodup → (∀ w ∈ ws, w ∉ rrsGet (getRRs rg ty) n) →
        rrsGet (getRRs (ws.foldl (fun g w => (insertRR g n w ty).1) rg) ty) n =
          rrsGet (getRRs rg ty) n ++ ws) := by
  intro rg n v ty k ws
  refine ⟨insertRR_twice rg n v ty, ?_, ?_⟩
  · intro hk hcount
    have hstable : ∀ j (g : RecordGenerator),
        (fun g => (insertRR g n v ty).1)^[j] ((insertRR g n v ty).1) =
          (insertRR g n v ty).1 := by
      intro j
      induction j with
      | zero => intro g; rfl
      | succ j ihj =>
        intro g
        rw [Function.iterate_succ_apply]
        rw [congrArg Prod.fst (insertRR_twice g n v ty)]
        exact ihj g
    obtain ⟨k, rfl⟩ : ∃ j, k = j + 1 := ⟨k - 1, by omega⟩
    rw [Function.iterate_succ_apply, hstable]
    rw [getRRs_insertRR, rrsGet_insert]
    by_cases hv : v ∈ rrsGet (getRRs rg ty) n
    · have h1 : 1 ≤ (rrsGet (getRRs rg ty) n).count v := List.one_le_count_iff.mpr hv
      simp only [hv, if_true]
      omega
    · have h0 : (rrsGet (getRRs rg ty) n).count v = 0 := List.count_eq_zero.mpr hv
      simp [hv, h0, List.count_append]
  · induction ws generalizing rg with
    | nil => intro _ _; simp
    | cons w ws ih =>
      intro hnd hfresh
      have hw : w ∉ rrsGet (getRRs rg ty) n := hfresh w (by simp)
      have step : rrsGet (getRRs (insertRR rg n w ty).1 ty) n =
          rrsGet (getRRs rg ty) n ++ [w] := by
        rw [getRRs_insertRR, rrsGet_insert, if_neg hw]
      have hnd' : ws.Nodup := (List.nodup_cons.mp hnd).2
      have hwni : w ∉ ws := (List.nodup_cons.mp hnd).1
      have hfresh' : ∀ u ∈ ws, u ∉ rrsGet (getRRs (insertRR rg n w ty).1 ty) n := by
        intro u hu
        rw [step]
        simp only [List.mem_append, List.mem_singleton]
        rintro (hc | hc)
        · exact hfresh u (by simp [hu]) hc
        · exact hwni (hc ▸ hu)
      calc rrsGet (getRRs (List.foldl (fun g u => (insertRR g n u ty).1)
              (insertRR rg n w ty).1 ws) ty) n
          = rrsGet (getRRs (insertRR rg n w ty).1 ty) n ++ ws := ih _ hnd' hfresh'
        _ = rrsGet (getRRs rg ty) n ++ w :: ws := by rw [step]; simp

/-- C4, witness: inserting `10.0.0.1` three times and then `10.0.0.2`
at `blah.mesos` leaves exactly the two values, in first-seen order, as
TestNTasks expects. -/
theorem insertRR_idempotent_witness :
    insertRR (insertRR emptyRG "blah.mesos" "10.0.0.1" "A").1 "blah.mesos" "10.0.0.1" "A" =
        ((insertRR emptyRG "blah.mesos" "10.0.0.1" "A").1, false) ∧
      (rrsGet (getRRs ((fun g => (insertRR g "blah.mesos" "10.0.0.1" "A").1)^[3] emptyRG) "A")
        "blah.mesos").count "10.0.0.1" = 1 ∧
      rrsGet (getRRs (["10.0.0.1", "10.0.0.2"].foldl
          (fun g w => (insertRR g "blah.mesos" w "A").1) emptyRG) "A") "blah.mesos" =
        ["10.0.0.1", "10.0.0.2"] := by
  have h := insertRR_idempotent emptyRG "blah.mesos" "10.0.0.1" "A" 3 ["10.0.0.1", "10.0.0.2"]
  exact ⟨h.1, h.2.1 (by omega) (by decide), by
    have := h.2.2 (by decide) (by decide)
    simpa using this⟩

/-! ## C7 and C10: the IP source selector -/

theorem foldl_append_map {α β : Type} (g : α → List β) (l : List α) (init : List β) :
    l.foldl (fun acc s => acc ++ g s) init = init ++ (l.map g).flatten := by
  induction l generalizing init with
  | nil => simp
  | cons x xs ih => simp [ih]

theorem taskIPs_eq_flatten (t : Task) (srcs : List String) :
    taskIPs (some t) srcs = (srcs.map (fun s => (sourceYield s t).filterMap goParseIP)).flatten := by
  have hstep : ∀ (acc : List (List Nat)) (s : String),
      (match sourceFn s with
        | some f => acc ++ (f t).filterMap goParseIP
        | none => acc) = acc ++ (sourceYield s t).filterMap goParseIP := by
    intro acc s
    unfold sourceYield
    cases sourceFn s <;> simp
  unfold taskIPs
  calc srcs.foldl (fun ips s =>
          match sourceFn s with
          | some f => ips ++ (f t).filterMap goParseIP
          | none => ips) []
      = srcs.foldl (fun ips s => ips ++ (sourceYield s t).filterMap goParseIP) [] := by
        congr 1
        funext ips s
        exact hstep ips s
    _ = (srcs.map (fun s => (sourceYield s t).filterMap goParseIP)).flatten := by
        rw [foldl_append_map]
        simp

/-- C7: over sources drawn from the fixed vocabulary, Task.IPs is the
concatenation, in listed source order, of every address each source
yields, unparseable strings dropped; and Task.IP is the string form of
the first element of that sequence, or the empty string when it is
empty. -/
theorem taskIPs_concat_and_first :
    ∀ (t : Task) (srcs : List String),
      (∀ s ∈ srcs, s = "host" ∨ s = "mesos" ∨ s = "docker" ∨ s = "netinfo") →
      taskIPs (some t) srcs =
          (srcs.map (fun s => (sourceYield s t).filterMap goParseIP)).flatten ∧
        taskIP (some t) srcs = ((taskIPs (some t) srcs).head?.elim "" ipString) := by
  intro t srcs _
  refine ⟨taskIPs_eq_flatten t srcs, ?_⟩
  unfold taskIP
  cases taskIPs (some t) srcs <;> simp

/-- C7, witness: on a task with one parseable and one unparseable
netinfo address, `netinfo` then `host` yields both parsed addresses in
order, and Task.IP prints the first. -/
theorem taskIPs_concat_witness :
    taskIPs (some task₁) ["netinfo", "host"] =
        ((["netinfo", "host"].map
          (fun s => (sourceYield s task₁).filterMap goParseIP))).flatten ∧
      taskIP (some task₁) ["netinfo", "host"] =
        ((taskIPs (some task₁) ["netinfo", "host"]).head?.elim "" ipString) :=
  taskIPs_concat_and_first task₁ ["netinfo", "host"] (by decide)

/-- C10: Task.IPs is total at its interface — a nil receiver yields
the empty sequence, and a source name outside the vocabulary
{host, mesos, docker, netinfo} is skipped without contributing
anything and without error. -/
theorem taskIPs_total :
    (∀ srcs, taskIPs none srcs = []) ∧
      ∀ (t : Option Task) (pre post : List String) (s : String),
        s ∉ (["host", "mesos", "docker", "netinfo"] : List String) →
        taskIPs t (pre ++ s :: post) = taskIPs t (pre ++ post) := by
  refine ⟨fun srcs => rfl, ?_⟩
  intro t pre post s hs
  simp only [List.mem_cons, List.mem_singleton, not_or] at hs
  obtain ⟨h1, h2, h3, h4, _⟩ := hs
  have hnone : sourceFn s = none := by
    simp [sourceFn, h1, h2, h3, h4]
  cases t with
  | none => rfl
  | some tk =>
    simp only [taskIPs, List.foldl_append, List.foldl_cons, hnone]

/-- C10, witness: a nil task yields nothing, and the unknown source
name `bogus` contributes nothing on a live task. -/
theorem taskIPs_total_witness :
    taskIPs none ["host"] = [] ∧
      taskIPs (some task₀) (["host"] ++ "bogus" :: []) = taskIPs (some task₀) (["host"] ++ []) :=
  ⟨taskIPs_total.1 ["host"],
    taskIPs_total.2 (some task₀) ["host"] [] "bogus" (by decide)⟩

/-! ## C9: master-list validation -/

theorem validateMastersAux_none_iff (ms : List String) :
    ∀ seen, validateMastersAux seen ms = none ↔
      ((∀ m ∈ ms, (goSplitHostPort m).isSome) ∧ (ms.map masterKey).Nodup ∧
        ∀ m ∈ ms, masterKey m ∉ seen) := by
  induction ms with
  | nil => intro seen; simp [validateMastersAux]
  | cons m rest ih =>
    intro seen
    simp only [validateMastersAux]
    rcases hsp : goSplitHostPort m with _ | hp
    · simp [hsp]
    · by_cases hseen : masterKey m ∈ seen
      · simp only [hseen, if_true]
        constructor
        · intro h; exact absurd h (by simp)
        · rintro ⟨-, -, hnot⟩
          exact absurd hseen (hnot m (by simp))
      · simp only [hseen, if_false, ih]
        constructor
        · rintro ⟨hall, hnd, hnotin⟩
          refine ⟨?_, ?_, ?_⟩
          · intro x hx
            rcases List.mem_cons.mp hx with rfl | hx'
            · simp [hsp]
            · exact hall x hx'
          · simp only [List.map_cons, List.nodup_cons]
            refine ⟨?_, hnd⟩
            intro hmem
            obtain ⟨x, hx, hkx⟩ := List.mem_map.mp hmem
            exact hnotin x hx (by simp [hkx])
          · intro x hx
            rcases List.mem_cons.mp hx with rfl | hx'
            · exact hseen
            · intro hc
              exact hnotin x hx' (by simp [hc])
        · rintro ⟨hall, hnd, hnotin⟩
          rw [List.map_cons, List.nodup_cons] at hnd
          refine ⟨fun x hx => hall x (by simp [hx]), hnd.2, ?_⟩
          intro x hx
          simp only [List.mem_cons, not_or]
          refine ⟨?_, hnotin x (by simp [hx])⟩
          intro hc
          exact hnd.1 (hc ▸ List.mem_map.mpr ⟨x, hx, rfl⟩)

/-- C9: validateMasters accepts exactly the lists that are empty or in
which every entry splits as host:port and no two entries share a
deduplication key (host:port after IPv6 normalization); in particular
two textually different spellings of one IPv6 address are rejected, as
is an entry that does not split. -/
theorem validateMasters_none_iff :
    (∀ ms, validateMastersGo ms = none ↔
        (ms = [] ∨ ((∀ m ∈ ms, (goSplitHostPort m).isSome) ∧ (ms.map masterKey).Nodup))) ∧
      (validateMastersGo ["[2001:0db8:3c4d:0015:0000:0000:1a2f:1a2b]:1",
          "[2001:db8:3c4d:15::1a2f:1a2b]:1"]).isSome = true ∧
      (validateMastersGo ["1.2.3.4"]).isSome = true := by
  refine ⟨?_, by decide, by decide⟩
  intro ms
  unfold validateMastersGo
  by_cases hms : ms = []
  · simp [hms]
  · rw [if_neg (by simpa using hms)]
    rw [validateMastersAux_none_iff]
    simp [hms]

/-- C9, witness: a list with two valid distinct masters is accepted. -/
theorem validateMasters_none_witness :
    validateMastersGo ["1.2.3.4:1", "5.6.7.8:1"] = none := by
  rw [validateMasters_none_iff.1]
  right
  exact ⟨by decide, by decide⟩

/-! ## C8: static-entry validation -/

theorem validateEntriesGo_cons (e : StaticEntry) (rest : List StaticEntry) :
    validateEntriesGo (e :: rest) = none ↔ (entryValid e ∧ validateEntriesGo rest = none) := by
  by_cases hA : e.typ = "A"
  · by_cases hip : (goParseIP e.value).isNone = true
    · have : ¬(goParseIP e.value).isSome = true := by
        simp [Option.isNone_iff_eq_none.mp hip]
      simp [validateEntriesGo, hA, hip, entryValid, this]
    · by_cases hf : matchValidFQDN e.fqdn = true
      · have : (goParseIP e.value).isSome = true := by
          rcases h : goParseIP e.value with _ | ip
          · rw [h] at hip; simp at hip
          · simp
        simp [validateEntriesGo, hA, hip, hf, entryValid, this]
      · simp [validateEntriesGo, hA, hip, hf, entryValid]
  · by_cases hS : e.typ = "SRV"
    · by_cases hf : matchValidSRV e.fqdn = true
      · by_cases hv : matchValidHostPort e.value = true
        · simp [validateEntriesGo, hA, hS, hf, hv, entryValid]
        · simp [validateEntriesGo, hA, hS, hf, hv, entryValid]
      · simp [validateEntriesGo, hA, hS, hf, entryValid]
    · simp [validateEntriesGo, hA, hS, entryValid]

/-- C8: with the file read and JSON decode abstracted to the parsed
entries of a readable file, the static-entry validation succeeds
exactly when every entry is valid — type A or SRV, A entries with a
parseable IP value and an FQDN in the A name pattern, SRV entries with
an FQDN in the underscore-extended pattern and a host:port value with
a 1-5 digit port; the repository's four invalid fixtures are each
rejected. -/
theorem validateEntries_none_iff :
    (∀ es, validateEntriesGo es = none ↔ ∀ e ∈ es, entryValid e) ∧
      (validateEntriesGo [⟨"hello.world+-23", "A", "10.0.0.1"⟩]).isSome = true ∧
      (validateEntriesGo [⟨"hello.world", "A", "10.0.0.av1"⟩]).isSome = true ∧
      (validateEntriesGo [⟨"_hello+110.!world", "SRV", "10.0.0.0:1234"⟩]).isSome = true ∧
      (validateEntriesGo [⟨"_hello._world", "SRV", "10.0.ase20.0:a1234"⟩]).isSome = true ∧
      (validateEntriesGo [⟨"hello.world", "AAAA", "10.0.0.1"⟩]).isSome = true := by
  refine ⟨?_, by decide, by decide, by decide, by decide, by decide⟩
  intro es
  induction es with
  | nil => simp [validateEntriesGo]
  | cons e rest ih =>
    rw [validateEntriesGo_cons, ih]
    simp

/-- C8, witness: the repository's valid two-entry file — an A record
and an SRV record — passes validation. -/
theorem validateEntries_none_witness :
    validateEntriesGo
        [⟨"hello.world", "A", "10.0.0.1"⟩, ⟨"_hello._tcp_.world", "SRV", "10.0.0.1:323"⟩] =
      none :=
  (validateEntries_none_iff.1 _).mpr (by decide)

/-! ## C5: decoding well-formed port-range expressions -/

theorem digitChar_mem_digits (m : Nat) :
    digitChar m ∈ (['0', '1', '2', '3', '4', '5', '6', '7', '8', '9'] : List Char) := by
  unfold digitChar
  split <;> decide

theorem natDigits_ne_nil (n : Nat) : natDigits n ≠ [] := by
  rw [natDigits_unfold]
  by_cases h : n < 10 <;> simp [h]

theorem natDigits_mem_digits (n : Nat) :
    ∀ c ∈ natDigits n, c ∈ (['0', '1', '2', '3', '4', '5', '6', '7', '8', '9'] : List Char) := by
  induction n using Nat.strong_induction_on with
  | _ n ih =>
    intro c hc
    rw [natDigits_unfold] at hc
    by_cases h : n < 10
    · rw [if_pos h] at hc
      simp only [List.mem_singleton] at hc
      exact hc ▸ digitChar_mem_digits n
    · rw [if_neg h] at hc
      rcases List.mem_append.mp hc with h1 | h1
      · exact ih (n / 10) (Nat.div_lt_self (by omega) (by omega)) c h1
      · simp only [List.mem_singleton] at h1
        exact h1 ▸ digitChar_mem_digits (n % 10)

theorem digitChar_toNat {m : Nat} (h : m < 10) : (digitChar m).toNat = 48 + m := by
  interval_cases m <;> decide

theorem atoiDigits_append_one (a : List Char) (c : Char) :
    atoiDigits (a ++ [c]) = atoiDigits a * 10 + (c.toNat - 48) := by
  unfold atoiDigits
  rw [List.foldl_append]
  rfl

theorem atoiDigits_natDigits (n : Nat) : atoiDigits (natDigits n) = n := by
  induction n using Nat.strong_induction_on with
  | _ n ih =>
    rw [natDigits_unfold]
    by_cases h : n < 10
    · rw [if_pos h]
      show 0 * 10 + ((digitChar n).toNat - 48) = n
      rw [digitChar_toNat h]
      omega
    · rw [if_neg h, atoiDigits_append_one,
        ih (n / 10) (Nat.div_lt_self (by omega) (by omega)),
        digitChar_toNat (Nat.mod_lt n (by omega))]
      omega

theorem goAtoi_natDigits {n : Nat} (h : n ≤ 65535) : goAtoi (natDigits n) = (n : Int) := by
  obtain ⟨c, cs, hsplit⟩ := List.exists_cons_of_ne_nil (natDigits_ne_nil n)
  have hc : c ∈ (['0', '1', '2', '3', '4', '5', '6', '7', '8', '9'] : List Char) :=
    natDigits_mem_digits n c (hsplit ▸ List.mem_cons_self c cs)
  have hcm : c ≠ '-' ∧ c ≠ '+' := by
    fin_cases hc <;> exact ⟨by decide, by decide⟩
  have hall : (natDigits n).all isDigitChar = true := by
    rw [List.all_eq_true]
    intro x hx
    have := natDigits_mem_digits n x hx
    fin_cases this <;> decide
  rw [hsplit] at hall
  unfold goAtoi
  rw [hsplit]
  rw [if_neg (by simp [hcm.1]), if_neg (by simp [hcm.2])]
  unfold atoiMag
  rw [if_neg (by simp [hall])]
  show (if ((atoiDigits (c :: cs) : Int) > 2 ^ 63 - 1) then ((2 : Int) ^ 63 - 1)
    else (atoiDigits (c :: cs) : Int)) = (n : Int)
  rw [← hsplit, atoiDigits_natDigits]
  rw [if_neg (by push_cast; omega)]

theorem goTrimSpace_no_space {s : List Char} (h : ∀ c ∈ s, goIsSpace c = false) :
    goTrimSpace s = s := by
  unfold goTrimSpace
  have h1 : s.dropWhile goIsSpace = s := by
    cases s with
    | nil => rfl
    | cons x xs => rw [List.dropWhile_cons, if_neg (by simp [h x (by simp)])]
  rw [h1]
  have h2 : s.reverse.dropWhile goIsSpace = s.reverse := by
    cases hr : s.reverse with
    | nil => rfl
    | cons x xs =>
      have hx : x ∈ s := by
        rw [← List.mem_reverse, hr]
        simp
      rw [List.dropWhile_cons, if_neg (by simp [h x hx])]
  rw [h2, List.reverse_reverse]

theorem goTrimSpace_cons_space (s : List Char) : goTrimSpace (' ' :: s) = goTrimSpace s := by
  unfold goTrimSpace
  rw [List.dropWhile_cons, if_pos (by decide)]

theorem joinSep_mem {sep : List Char} {ps : List (List Char)} {x : Char}
    (h : x ∈ joinSep sep ps) : (∃ q ∈ ps, x ∈ q) ∨ x ∈ sep := by
  induction ps with
  | nil => simp [joinSep] at h
  | cons p ps ih =>
    cases ps with
    | nil =>
      simp only [joinSep] at h
      exact Or.inl ⟨p, by simp, h⟩
    | cons q qs =>
      simp only [joinSep, List.append_assoc, List.mem_append] at h
      rcases h with h | h | h
      · exact Or.inl ⟨p, by simp, h⟩
      · exact Or.inr h
      · rcases ih h with ⟨r, hr, hxr⟩ | hs
        · exact Or.inl ⟨r, by simp [hr], hxr⟩
        · exact Or.inr hs

theorem splitComma_joinSep :
    ∀ (ps : List (List Char)) (p : List Char), (∀ x ∈ p, x ≠ ',') →
      (∀ q ∈ ps, ∀ x ∈ q, x ≠ ',') →
      goSplitChar ',' (joinSep [',', ' '] (p :: ps)) = p :: ps.map (fun q => ' ' :: q) := by
  intro ps
  induction ps with
  | nil =>
    intro p hp _
    show goSplitChar ',' (joinSep [',', ' '] [p]) = [p]
    exact goSplitChar_no_occurrence hp
  | cons q qs ih =>
    intro p hp hq
    have hbody := ih q (hq q (by simp)) (fun r hr => hq r (by simp [hr]))
    have hjoin : joinSep [',', ' '] (p :: q :: qs) =
        p ++ ',' :: (' ' :: joinSep [',', ' '] (q :: qs)) := by
      simp [joinSep]
    rw [hjoin, goSplitChar_break hp]
    rw [goSplitChar_cons_ne (by decide) _ hbody]
    rfl

theorem piece_mem {lo hi : Nat} {x : Char} (h : x ∈ natDigits lo ++ '-' :: natDigits hi) :
    x ∈ (['0', '1', '2', '3', '4', '5', '6', '7', '8', '9'] : List Char) ∨ x = '-' := by
  simp only [List.mem_append, List.mem_cons] at h
  rcases h with h | h | h
  · exact Or.inl (natDigits_mem_digits lo x h)
  · exact Or.inr h
  · exact Or.inl (natDigits_mem_digits hi x h)

theorem splitDash_piece (lo hi : Nat) :
    goSplitChar '-' (natDigits lo ++ '-' :: natDigits hi) = [natDigits lo, natDigits hi] := by
  have hlo : ∀ x ∈ natDigits lo, x ≠ '-' := by
    intro x hx
    have := natDigits_mem_digits lo x hx
    fin_cases this <;> decide
  have hhi : ∀ x ∈ natDigits hi, x ≠ '-' := by
    intro x hx
    have := natDigits_mem_digits hi x hx
    fin_cases this <;> decide
  rw [goSplitChar_break hlo, goSplitChar_no_occurrence hhi]

theorem portsLoop_space_cons (p : List Char) (rest : List (List Char)) :
    portsLoop ((' ' :: p) :: rest) = portsLoop (p :: rest) := by
  simp only [portsLoop, goTrimSpace_cons_space]

theorem portsLoop_piece {lo hi : Nat} (hlh : lo ≤ hi) (hhi : hi ≤ 65535)
    (rest : List (List Char)) :
    portsLoop ((natDigits lo ++ '-' :: natDigits hi) :: rest) =
      (portsLoop rest).map (fun tail =>
        (List.range (hi + 1 - lo)).map (fun k => (⟨natDigits (lo + k)⟩ : String)) ++ tail) := by
  have hns : ∀ c ∈ natDigits lo ++ '-' :: natDigits hi, goIsSpace c = false := by
    intro c hc
    rcases piece_mem hc with h | h
    · fin_cases h <;> decide
    · rw [h]; decide
  simp only [portsLoop, goTrimSpace_no_space hns, splitDash_piece]
  rw [goAtoi_natDigits (le_trans hlh hhi), goAtoi_natDigits hhi]
  have harg : ((hi : Int) + 1 - (lo : Int)).toNat = hi + 1 - lo := by omega
  rw [harg]
  have hfun : ∀ k : Nat, (⟨goItoa ((lo : Int) + (k : Nat))⟩ : String) =
      (⟨natDigits (lo + k)⟩ : String) := by
    intro k
    unfold goItoa
    rw [if_neg (by omega)]
    have : ((lo : Int) + (k : Nat)).toNat = lo + k := by omega
    rw [this]
  simp only [hfun]

theorem portsLoop_spaced :
    ∀ rs : List (Nat × Nat), (∀ p ∈ rs, p.1 ≤ p.2 ∧ p.2 ≤ 65535) →
      portsLoop (rs.map (fun p => ' ' :: (natDigits p.1 ++ '-' :: natDigits p.2))) =
        some (expandRanges rs) := by
  intro rs
  induction rs with
  | nil => intro _; rfl
  | cons r rest ih =>
    intro h
    have hr := h r (by simp)
    rw [List.map_cons, portsLoop_space_cons, portsLoop_piece hr.1 hr.2,
      ih (fun p hp => h p (by simp [hp]))]
    simp [expandRanges]

theorem joinSep_ne_nil {sep p : List Char} (hp : p ≠ []) (ps : List (List Char)) :
    joinSep sep (p :: ps) ≠ [] := by
  cases ps with
  | nil => simpa [joinSep] using hp
  | cons q qs => simp [joinSep, hp]

theorem Ports_of_data_shape {s : String} {body : List Char}
    (hne : ¬(s = "" ∨ s = "[]")) (hdata : s.data = '[' :: (body ++ [']']))
    (hlb : ∀ x ∈ body ++ [']'], x ≠ '[') (hrb : ∀ x ∈ body, x ≠ ']') :
    Resources.Ports ⟨s⟩ = portsLoop (goSplitChar ',' body) := by
  simp only [Resources.Ports]
  rw [if_neg hne, hdata, goSplitChar_cons_sep, goSplitChar_no_occurrence hlb]
  show (match goSplitChar ']' (body ++ [']']) with
        | lhs :: _ => portsLoop (goSplitChar ',' lhs)
        | [] => none) = _
  rw [goSplitChar_break hrb]

/-- C5: on every well-formed port-range expression — the rendered form
of a list of sub-ranges with low at most high — Resources.Ports
returns the decimal port strings of each sub-range expanded
inclusively in ascending order, sub-ranges concatenated in listed
order; in particular the repository's three concrete decodings
hold. -/
theorem ports_decodes_render :
    (∀ rs : List (Nat × Nat), (∀ p ∈ rs, p.1 ≤ p.2 ∧ p.2 ≤ 65535) →
        Resources.Ports ⟨renderRanges rs⟩ = some (expandRanges rs)) ∧
      Resources.Ports ⟨"[31328-31328]"⟩ = some ["31328"] ∧
      Resources.Ports ⟨"[31115-31117]"⟩ = some ["31115", "31116", "31117"] ∧
      Resources.Ports ⟨"[31111-31111, 31113-31113]"⟩ = some ["31111", "31113"] := by
  refine ⟨?_, by decide, by decide, by decide⟩
  intro rs h
  cases rs with
  | nil => decide
  | cons pr rest =>
    have hpiece_chars : ∀ q ∈ (pr :: rest).map rangePiece, ∀ x ∈ q,
        x ∈ (['0', '1', '2', '3', '4', '5', '6', '7', '8', '9'] : List Char) ∨ x = '-' := by
      intro q hq x hxq
      obtain ⟨p, _, rfl⟩ := List.mem_map.mp hq
      exact piece_mem hxq
    have hbody_mem : ∀ x ∈ joinSep [',', ' '] ((pr :: rest).map rangePiece),
        x ∈ (['0', '1', '2', '3', '4', '5', '6', '7', '8', '9'] : List Char) ∨
          x = '-' ∨ x = ',' ∨ x = ' ' := by
      intro x hx
      rcases joinSep_mem hx with ⟨q, hq, hxq⟩ | hsep
      · rcases hpiece_chars q hq x hxq with h1 | h1
        · exact Or.inl h1
        · exact Or.inr (Or.inl h1)
      · rcases (by simpa using hsep : x = ',' ∨ x = ' ') with h1 | h1
        · exact Or.inr (Or.inr (Or.inl h1))
        · exact Or.inr (Or.inr (Or.inr h1))
    have hlb : ∀ x ∈ joinSep [',', ' '] ((pr :: rest).map rangePiece) ++ [']'], x ≠ '[' := by
      intro x hx
      rcases List.mem_append.mp hx with hx1 | hx1
      · rcases hbody_mem x hx1 with h1 | h1 | h1 | h1
        · fin_cases h1 <;> decide
        · rw [h1]; decide
        · rw [h1]; decide
        · rw [h1]; decide
      · rw [show x = ']' by simpa using hx1]; decide
    have hrb : ∀ x ∈ joinSep [',', ' '] ((pr :: rest).map rangePiece), x ≠ ']' := by
      intro x hx
      rcases hbody_mem x hx with h1 | h1 | h1 | h1
      · fin_cases h1 <;> decide
      · rw [h1]; decide
      · rw [h1]; decide
      · rw [h1]; decide
    have hbody_ne : joinSep [',', ' '] ((pr :: rest).map rangePiece) ≠ [] := by
      rw [List.map_cons]
      exact joinSep_ne_nil (by simp [rangePiece]) _
    have hguard : ¬(renderRanges (pr :: rest) = "" ∨ renderRanges (pr :: rest) = "[]") := by
      rintro (hg | hg)
      · have hd := congrArg String.data hg
        rw [show (renderRanges (pr :: rest)).data =
          '[' :: (joinSep [',', ' '] ((pr :: rest).map rangePiece) ++ [']']) from rfl] at hd
        simp at hd
      · have hd := congrArg String.data hg
        rw [show (renderRanges (pr :: rest)).data =
          '[' :: (joinSep [',', ' '] ((pr :: rest).map rangePiece) ++ [']']) from rfl] at hd
        have hl := congrArg List.length hd
        simp at hl
        exact hbody_ne (by rw [List.map_cons]; exact hl)
    rw [show (⟨renderRanges (pr :: rest)⟩ : Resources) = ⟨renderRanges (pr :: rest)⟩ from rfl,
      Ports_of_data_shape hguard rfl hlb hrb]
    have hcomma : ∀ q ∈ (pr :: rest).map rangePiece, ∀ x ∈ q, x ≠ ',' := by
      intro q hq x hxq
      rcases hpiece_chars q hq x hxq with h1 | h1
      · fin_cases h1 <;> decide
      · rw [h1]; decide
    rw [List.map_cons]
    rw [splitComma_joinSep (rest.map rangePiece) (rangePiece pr)
      (hcomma _ (by simp)) (fun q hq => hcomma q (by simp [hq]))]
    have hmaps : (rest.map rangePiece).map (fun q => ' ' :: q) =
        rest.map (fun p => ' ' :: (natDigits p.1 ++ '-' :: natDigits p.2)) := by
      rw [List.map_map]
      rfl
    rw [hmaps]
    have hpr := h pr (by simp)
    show portsLoop ((natDigits pr.1 ++ '-' :: natDigits pr.2) ::
      rest.map (fun p => ' ' :: (natDigits p.1 ++ '-' :: natDigits p.2))) = _
    rw [portsLoop_piece hpr.1 hpr.2, portsLoop_spaced rest (fun p hp => h p (by simp [hp]))]
    simp [expandRanges]

/-- C5, witness: the rendered two-range expression decodes to the
expected expansion. -/
theorem ports_decodes_render_witness :
    Resources.Ports ⟨renderRanges [(31111, 31111), (31113, 31113)]⟩ =
      some (expandRanges [(31111, 31111), (31113, 31113)]) :=
  ports_decodes_render.1 [(31111, 31111), (31113, 31113)] (by decide)

/-! ## C3: the records of a valid leader with no fallback masters -/

theorem rrsInsert_cons_ne {n k : String} (h : n ≠ k) (v : String) (vs : List String)
    (rest : rrs) :
    rrsInsert n v ((k, vs) :: rest) =
      ((k, vs) :: (rrsInsert n v rest).1, (rrsInsert n v rest).2) := by
  simp [rrsInsert, h]

/-- C3: for every domain, leader `5@6:7` with an empty master list
emits exactly five records and nothing else — A records binding
`leader.<domain>.`, `master.<domain>.` and `master0.<domain>.` to `6`,
and the `_leader._tcp`/`_leader._udp` SRV records binding
`leader.<domain>.:7`. -/
theorem masterRecord_valid_leader (d : String) :
    masterRecordModel d [] "5@6:7" emptyRG =
      ⟨[("leader." ++ d ++ ".", ["6"]), ("master." ++ d ++ ".", ["6"]),
          ("master0." ++ d ++ ".", ["6"])],
        [("_leader._tcp." ++ d ++ ".", ["leader." ++ d ++ ".:7"]),
          ("_leader._udp." ++ d ++ ".", ["leader." ++ d ++ ".:7"])]⟩ := by
  have hL : leaderParse "5@6:7" = some ("6:7", "6", "7") := by decide
  have n21 : ("master." ++ d ++ "." : String) ≠ "leader." ++ d ++ "." :=
    key_ne_of_take "master." "leader." d 1 (by decide) (by decide) (by decide)
  have n31 : ("master0." ++ d ++ "." : String) ≠ "leader." ++ d ++ "." :=
    key_ne_of_take "master0." "leader." d 1 (by decide) (by decide) (by decide)
  have n32 : ("master0." ++ d ++ "." : String) ≠ "master." ++ d ++ "." :=
    key_ne_of_take "master0." "master." d 7 (by decide) (by decide) (by decide)
  have n43 : ("_leader._udp." ++ d ++ "." : String) ≠ "_leader._tcp." ++ d ++ "." :=
    key_ne_of_take "_leader._udp." "_leader._tcp." d 13 (by decide) (by decide) (by decide)
  have e0 : ("master" ++ (⟨natDigits 0⟩ : String) ++ "." : String) = "master0." := rfl
  have e7 : ("leader." ++ d ++ "." ++ ":" ++ "7" : String) = "leader." ++ d ++ ".:7" := by
    rw [String.append_assoc, String.append_assoc]
    rfl
  simp only [masterRecordModel, hL, masterLoop, insertRR, emptyRG, e0, e7,
    rrsInsert_cons_ne n21, rrsInsert_cons_ne n31, rrsInsert_cons_ne n32,
    rrsInsert_cons_ne n43, rrsInsert]
  simp [n31, n32, n43]

/-! ## C1: the latest running status is authoritative -/

theorem statusIPs_eq_selectAuthFrom (src : Status → List String) (st : List Status) :
    ∀ acc : Option Status,
      st.foldl
        (fun (p : Rat × List String) s =>
          if s.state = "TASK_RUNNING" ∧ p.1 < s.timestamp then (s.timestamp, src s) else p)
        (accTs acc, acc.elim [] src) =
      (accTs (selectAuthFrom acc st), (selectAuthFrom acc st).elim [] src) := by
  induction st with
  | nil => intro acc; rfl
  | cons s rest ih =>
    intro acc
    simp only [List.foldl_cons, selectAuthFrom, selStep]
    by_cases hc : s.state = "TASK_RUNNING" ∧ accTs acc < s.timestamp
    · rw [if_pos hc, if_pos hc]
      have := ih (some s)
      simpa [accTs, selectAuthFrom] using this
    · rw [if_neg hc, if_neg hc]
      exact ih acc

theorem selectAuthFrom_cons (acc : Option Status) (s : Status) (rest : List Status) :
    selectAuthFrom acc (s :: rest) = selectAuthFrom (selStep acc s) rest := rfl

theorem statusIPs_elim (st : List Status) (src : Status → List String) :
    statusIPs st src = (selectAuth st).elim [] src := by
  unfold statusIPs selectAuth
  have := statusIPs_eq_selectAuthFrom src st none
  simp only [accTs, Option.elim] at this
  rw [this]
  cases selectAuthFrom none st <;> rfl

theorem selectAuthFrom_ts_mono (st : List Status) :
    ∀ acc, accTs acc ≤ accTs (selectAuthFrom acc st) := by
  induction st with
  | nil => intro acc; exact le_refl _
  | cons s rest ih =>
    intro acc
    rw [selectAuthFrom_cons]
    by_cases hc : s.state = "TASK_RUNNING" ∧ accTs acc < s.timestamp
    · have hstep : selStep acc s = some s := by simp [selStep, hc]
      calc accTs acc ≤ s.timestamp := le_of_lt hc.2
        _ = accTs (selStep acc s) := by rw [hstep]; rfl
        _ ≤ _ := ih (selStep acc s)
    · have hstep : selStep acc s = acc := by simp [selStep, hc]
      calc accTs acc = accTs (selStep acc s) := by rw [hstep]
        _ ≤ _ := ih (selStep acc s)

theorem selectAuthFrom_cases (st : List Status) :
    ∀ acc, selectAuthFrom acc st = acc ∨
      ∃ a ∈ st, selectAuthFrom acc st = some a ∧ a.state = "TASK_RUNNING" ∧
        accTs acc < a.timestamp := by
  induction st with
  | nil => intro acc; exact Or.inl rfl
  | cons s rest ih =>
    intro acc
    rw [selectAuthFrom_cons]
    by_cases hc : s.state = "TASK_RUNNING" ∧ accTs acc < s.timestamp
    · have hstep : selStep acc s = some s := by simp [selStep, hc]
      rcases ih (selStep acc s) with h | ⟨a, ha, heq, hrun, hts⟩
      · right
        exact ⟨s, by simp, by rw [h, hstep], hc.1, hc.2⟩
      · right
        refine ⟨a, by simp [ha], heq, hrun, ?_⟩
        rw [hstep] at hts
        exact lt_trans hc.2 hts
    · have hstep : selStep acc s = acc := by simp [selStep, hc]
      rcases ih (selStep acc s) with h | ⟨a, ha, heq, hrun, hts⟩
      · exact Or.inl (by rw [h, hstep])
      · right
        rw [hstep] at hts
        exact ⟨a, by simp [ha], heq, hrun, hts⟩

theorem selectAuthFrom_ts_ge (st : List Status) :
    ∀ acc, ∀ b ∈ st, b.state = "TASK_RUNNING" →
      b.timestamp ≤ accTs (selectAuthFrom acc st) := by
  induction st with
  | nil => intro _ b hb; simp at hb
  | cons s rest ih =>
    intro acc b hb hrun
    rw [selectAuthFrom_cons]
    rcases List.mem_cons.mp hb with rfl | hb'
    · by_cases hc : b.state = "TASK_RUNNING" ∧ accTs acc < b.timestamp
      · have hstep : selStep acc b = some b := by simp [selStep, hc]
        calc b.timestamp = accTs (selStep acc b) := by rw [hstep]; rfl
          _ ≤ _ := selectAuthFrom_ts_mono rest (selStep acc b)
      · have hts : b.timestamp ≤ accTs acc := by
          rcases not_and_or.mp hc with h | h
          · exact absurd hrun h
          · exact le_of_not_lt h
        have hstep : selStep acc b = acc := by simp [selStep, hc]
        calc b.timestamp ≤ accTs acc := hts
          _ = accTs (selStep acc b) := by rw [hstep]
          _ ≤ _ := selectAuthFrom_ts_mono rest (selStep acc b)
    · exact ih (selStep acc s) b hb' hrun

theorem selectAuth_eq_none_iff (st : List Status) :
    selectAuth st = none ↔
      ∀ s ∈ st, ¬(s.state = "TASK_RUNNING" ∧ (-1 : Rat) < s.timestamp) := by
  constructor
  · intro h s hs
    rintro ⟨hrun, hts⟩
    have hthis := selectAuthFrom_ts_ge st none s hs hrun
    have h2 : selectAuthFrom none st = none := h
    rw [h2] at hthis
    simp only [accTs] at hthis
    exact absurd hthis (not_le.mpr hts)
  · intro h
    rcases selectAuthFrom_cases st none with hc | ⟨a, ha, _, hrun, hts⟩
    · exact hc
    · exact absurd ⟨hrun, by simpa [accTs] using hts⟩ (h a ha)

/-- C1: only the running status with the greatest timestamp is
authoritative for statusIPs — when no running status beats the initial
-1 the extraction yields nothing, otherwise it reads exactly one
maximal-timestamp running status; the array order is irrelevant
whenever running timestamps do not collide; and (per the modelled
record generator) a task whose most recent status by timestamp is not
running contributes no records. -/
theorem statusIPs_latest_running :
    ∀ (st : List Status) (src : Status → List String),
      ((∀ s ∈ st, ¬(s.state = "TASK_RUNNING" ∧ (-1 : Rat) < s.timestamp)) →
        statusIPs st src = []) ∧
      ((∃ s ∈ st, s.state = "TASK_RUNNING" ∧ (-1 : Rat) < s.timestamp) →
        ∃ a ∈ st, a.state = "TASK_RUNNING" ∧ statusIPs st src = src a ∧
          ∀ b ∈ st, b.state = "TASK_RUNNING" → b.timestamp ≤ a.timestamp) ∧
      (∀ st', st.Perm st' →
        (∀ x ∈ st, ∀ y ∈ st, x.state = "TASK_RUNNING" → y.state = "TASK_RUNNING" →
          x.timestamp = y.timestamp → x = y) →
        statusIPs st src = statusIPs st' src) ∧
      (∀ t : Task, t.statuses = st →
        ∀ s, mostRecentStatus st = some s → s.state ≠ "TASK_RUNNING" →
          taskContributesRecords t = false) := by
  have key : ∀ (st : List Status) (src : Status → List String),
      (∃ s ∈ st, s.state = "TASK_RUNNING" ∧ (-1 : Rat) < s.timestamp) →
      ∃ a ∈ st, a.state = "TASK_RUNNING" ∧ statusIPs st src = src a ∧
        ∀ b ∈ st, b.state = "TASK_RUNNING" → b.timestamp ≤ a.timestamp := by
    intro st src hex
    have hnn : selectAuth st ≠ none := by
      rw [Ne, selectAuth_eq_none_iff]
      push_neg
      obtain ⟨s, hs, h⟩ := hex
      exact ⟨s, hs, h⟩
    rcases selectAuthFrom_cases st none with hc | ⟨a, ha, heq, hrun, _⟩
    · exact absurd hc hnn
    · refine ⟨a, ha, hrun, ?_, ?_⟩
      · rw [statusIPs_elim, show selectAuth st = some a from heq]
        rfl
      · intro b hb hbrun
        have hthis := selectAuthFrom_ts_ge st none b hb hbrun
        rw [heq] at hthis
        simpa [accTs] using hthis
  intro st src
  refine ⟨?_, key st src, ?_, ?_⟩
  · intro h
    rw [statusIPs_elim, (selectAuth_eq_none_iff st).mpr h]
    rfl
  · intro st' hperm hdist
    by_cases hex : ∃ s ∈ st, s.state = "TASK_RUNNING" ∧ (-1 : Rat) < s.timestamp
    · obtain ⟨a, ha, harun, haeq, hamax⟩ := key st src hex
      have hex' : ∃ s ∈ st', s.state = "TASK_RUNNING" ∧ (-1 : Rat) < s.timestamp := by
        obtain ⟨s, hs, h⟩ := hex
        exact ⟨s, hperm.mem_iff.mp hs, h⟩
      obtain ⟨a', ha', harun', haeq', hamax'⟩ := key st' src hex'
      have haa : a = a' := by
        have h1 : a.timestamp ≤ a'.timestamp :=
          hamax' a (hperm.mem_iff.mp ha) harun
        have h2 : a'.timestamp ≤ a.timestamp :=
          hamax a' (hperm.mem_iff.mpr ha') harun'
        exact hdist a ha a' (hperm.mem_iff.mpr ha') harun harun' (le_antisymm h1 h2)
      rw [haeq, haeq', haa]
    · have hns : ∀ s ∈ st, ¬(s.state = "TASK_RUNNING" ∧ (-1 : Rat) < s.timestamp) := by
        push_neg at hex
        intro s hs
        rintro ⟨h1, h2⟩
        exact absurd h2 (not_lt.mpr (hex s hs h1))
      have hns' : ∀ s ∈ st', ¬(s.state = "TASK_RUNNING" ∧ (-1 : Rat) < s.timestamp) :=
        fun s hs => hns s (hperm.mem_iff.mpr hs)
      rw [statusIPs_elim, (selectAuth_eq_none_iff st).mpr hns,
        statusIPs_elim, (selectAuth_eq_none_iff st').mpr hns']
  · intro t ht s hmr hnr
    unfold taskContributesRecords
    rw [ht, hmr]
    simpa using hnr

/-- C1, witness: with an earlier running status followed by a later
killed status, the extraction is unchanged by reordering the array,
and the task contributes no records since its most recent status is
not running. -/
theorem statusIPs_latest_running_witness :
    statusIPs [status₀run, status₀kill] (labelVals DockerIPLabel) =
        statusIPs [status₀kill, status₀run] (labelVals DockerIPLabel) ∧
      taskContributesRecords task₀ = false := by
  have h := statusIPs_latest_running [status₀run, status₀kill] (labelVals DockerIPLabel)
  exact ⟨h.2.2.1 [status₀kill, status₀run] (List.Perm.swap _ _ _) (by decide),
    h.2.2.2 task₀ rfl status₀kill (by decide) (by decide)⟩

end MesosDNS
